import Mathlib

/-!
Shallow embedding of the cleaning pipeline of `src/app.py`
(Interactive Data Cleaning Tool).

The Working Table is a pandas DataFrame held in `st.session_state.cleaned_df`;
we model it as a list of named columns together with a row-major list of
cells.  A cell is a rational number (pandas numeric cell), a string
(pandas object cell) or missing (NaN).  Machine floats are modelled by `ℚ`;
IEEE NaN payloads and float rounding are not modelled, NaN is the `null`
cell.

Operations embedded (line numbers refer to `src/app.py`):
  * `dropnaSubset`      — line 79, `dropna(subset=columns_to_drop_missing)`
  * `winsorizeTable`    — lines 121-122, the winsorize loop over numeric columns
  * `removeOutliersIQR` — lines 126-131, the IQR removal branch
  * `applyCleanData`    — lines 114-134, the Clean Data button handler
  * `uploadRerun`       — lines 12-18, session-state initialisation on upload
  * `exportCleaned`     — lines 154-157, CSV export (serialisation modelled
                          from the spec, pandas `to_csv`/`read_csv` are
                          library code outside the repository)
-/

namespace DataClean

/-- A cell of the Working Table: numeric value, text value, or missing (NaN). -/
inductive Value where
  | num (q : ℚ)
  | str (s : String)
  | null
deriving DecidableEq, Repr

/-- The Working Table: named columns and row-major cell data. -/
structure Table where
  cols : List String
  rows : List (List Value)
deriving DecidableEq, Repr

/-- The `j`-th column of the table, read off the row-major data.
Positions a row does not cover read as missing. -/
def getCol (t : Table) (j : ℕ) : List Value :=
  t.rows.map (fun r => r.getD j Value.null)

/-- The numeric values of a column, in row order (pandas drops NaN before
computing quantiles). -/
def colNums (c : List Value) : List ℚ :=
  c.filterMap (fun v => match v with | .num q => some q | _ => none)

/-- `true` when every cell of the column is numeric (no missing, no text).
Such a column is selected by `select_dtypes(include=["float", "int"])` and
contains no NaN. -/
def colAllNum (c : List Value) : Bool :=
  c.all (fun v => match v with | .num _ => true | _ => false)

/-- `true` when the column has a numeric pandas dtype: every cell numeric or
missing.  A column with any text cell has object dtype. -/
def colNumericDtype (c : List Value) : Bool :=
  c.all (fun v => match v with | .str _ => false | _ => true)

/-- Whether the cell at labelled column `c` of row `r` is non-null,
label resolved through the table's column list (pandas label lookup). -/
def cellNotNull (t : Table) (r : List Value) (c : String) : Bool :=
  match r.getD (t.cols.indexOf c) Value.null with
  | .null => false
  | _ => true

/-- Line 79: `st.session_state.cleaned_df.dropna(subset=columns_to_drop_missing)`.
Keeps exactly the rows whose cells in every selected column are non-null. -/
def dropnaSubset (t : Table) (subset : List String) : Table :=
  { cols := t.cols
    rows := t.rows.filter (fun r => subset.all (fun c => cellNotNull t r c)) }

/-- The lower winsorization bound of a value list: the `k`-th order statistic
with `k = ⌊0.05·n⌋`.  Scipy's `_winsorize1D` computes `lowidx = int(low_limit*n)`
(`int(0.05*n)` equals `n / 20` in natural-number division for these sizes) and
assigns `a[idx[:lowidx]] = a[idx[lowidx]]` through a stable argsort. -/
def winsLo (xs : List ℚ) : ℚ :=
  (List.insertionSort (· ≤ ·) xs).getD (xs.length / 20) 0

/-- The upper winsorization bound: the `(n - k - 1)`-th order statistic, i.e.
the value scipy writes over the positions `idx[n - k:]`. -/
def winsHi (xs : List ℚ) : ℚ :=
  (List.insertionSort (· ≤ ·) xs).getD (xs.length - xs.length / 20 - 1) 0

/-- Line 122: `winsorize(cleaned_df[col], limits=[0.05, 0.05])` on a column
without NaN.  Scipy replaces the `k` smallest entries (by stable argsort) with
the `k`-th order statistic and the `k` largest with the `(n-k-1)`-th; because
`k ≤ n - k - 1` this coincides pointwise with clipping every entry into the
interval `[winsLo, winsHi]`. -/
def winsorizeCol (xs : List ℚ) : List ℚ :=
  xs.map (fun x => min (winsHi xs) (max (winsLo xs) x))

/-- Map with the element's position, starting at index `i`. -/
def mapFromIdx (f : ℕ → α → β) : ℕ → List α → List β
  | _, [] => []
  | i, a :: as => f i a :: mapFromIdx f (i + 1) as

/-- The `Option ℚ` view of a numeric-dtype column: a numeric cell is a value,
a missing cell is NaN.  (Text cells never occur in the columns this view is
used on; they read as NaN.) -/
def colOpts (c : List Value) : List (Option ℚ) :=
  c.map (fun v => match v with | .num q => some q | _ => none)

/-- A cell back from the `Option ℚ` view. -/
def optValue : Option ℚ → Value
  | some q => Value.num q
  | none => Value.null

/-- Line 122 on one float/int-dtype column, NaN included: scipy's
`_winsorize1D` with `limits=[0.05, 0.05]`, `inclusive=(True, True)` and the
default `nan_policy='propagate'` takes `n = a.count()` (the full length,
NaN counted), `k = int(0.05*n)` (= `n / 20` here), argsorts with NaN last,
then assigns `a[idx[:k]] = a[idx[k]]` and `a[idx[n-k:]] = a[idx[n-k-1]]`.
With `m` NaN cells and `vs` the sorted numeric values this is, cell by cell
(`k ≤ n-k-1`, so the two assignments never interact):
  * a numeric cell, when `k < vs.length`, is raised to `vs[k]` from below and,
    when additionally `n-k-1 < vs.length` (i.e. `m ≤ k`, so numeric positions
    reach into the top slice), lowered to `vs[n-k-1]` from above;
  * a numeric cell with `k ≥ vs.length` lies in the bottom slice whose
    replacement `a[idx[k]]` is NaN, so it becomes NaN;
  * a NaN cell becomes `vs[n-k-1]` when `m ≤ k` (all NaN positions then sit in
    the top slice and `n-k-1` is a numeric position), and stays NaN otherwise
    (the top slice then only holds NaN and its replacement is NaN). -/
def winsorizeDtypeCell (n : ℕ) (vs : List ℚ) : Option ℚ → Option ℚ
  | some x =>
    if n / 20 < vs.length then
      if n - n / 20 - 1 < vs.length then
        some (min (vs.getD (n - n / 20 - 1) 0) (max (vs.getD (n / 20) 0) x))
      else some (max (vs.getD (n / 20) 0) x)
    else none
  | none =>
    if n - vs.length ≤ n / 20 then some (vs.getD (n - n / 20 - 1) 0) else none

/-- Line 122 on one float/int-dtype column: `winsorizeDtypeCell` applied
cell-wise, with `n` the full column length and `vs` its sorted numeric
values. -/
def winsorizeDtypeCol (cells : List (Option ℚ)) : List (Option ℚ) :=
  cells.map (winsorizeDtypeCell cells.length
    (List.insertionSort (· ≤ ·) (cells.filterMap id)))

/-- Lines 121-122: `for col in cleaned_df.select_dtypes(include=["float", "int"]).columns:
cleaned_df[col] = winsorize(cleaned_df[col], limits=[0.05, 0.05])`.
Every float/int-dtype column — i.e. every column without text cells, NaN or
not — is winsorized in place; object-dtype columns are left untouched. -/
def winsorizeTable (t : Table) : Table :=
  { cols := t.cols
    rows := mapFromIdx (fun i r =>
      mapFromIdx (fun j v =>
        if colNumericDtype (getCol t j) then
          optValue ((winsorizeDtypeCol (colOpts (getCol t j))).getD i none)
        else v) 0 r) 0 t.rows }

/-- Linear-interpolation quantile of a sorted non-empty value list, as pandas
`quantile` computes it: `h = q·(n-1)`, `i = ⌊h⌋`, result
`v[i] + (h - i)·(v[i+1] - v[i])`.  When `i + 1 = n` the fraction `h - i` is
zero, so defaulting the upper neighbour to `v[i]` is harmless. -/
def quantileSorted (v : List ℚ) (q : ℚ) : ℚ :=
  let n := v.length
  let h : ℚ := q * ((n : ℚ) - 1)
  let i : ℕ := (⌊h⌋).toNat
  let lo := v.getD i 0
  let hi := v.getD (i + 1) lo
  lo + (h - (i : ℚ)) * (hi - lo)

/-- Per-column quantile as in `cleaned_df.quantile(q)`: NaN cells are skipped;
an all-NaN column yields NaN (here `none`). -/
def colQuantile (c : List Value) (q : ℚ) : Option ℚ :=
  let vs := List.insertionSort (· ≤ ·) (colNums c)
  if vs.isEmpty then none else some (quantileSorted vs q)

/-- Lines 126-129: the outlier fences `(Q1 - 1.5*IQR, Q3 + 1.5*IQR)` of column
`j`.  `DataFrame.quantile` covers only columns of numeric dtype, so a column
holding text cells has no fences and never flags a cell; likewise a column with
NaN fences (all missing) never flags a cell, since comparisons with NaN are
false. -/
def iqrBounds (t : Table) (j : ℕ) : Option (ℚ × ℚ) :=
  let c := getCol t j
  if colNumericDtype c then
    match colQuantile c (1/4), colQuantile c (3/4) with
    | some q1, some q3 => some (q1 - 3/2 * (q3 - q1), q3 + 3/2 * (q3 - q1))
    | _, _ => none
  else none

/-- Line 129: `is_outlier = (cleaned_df < (Q1 - 1.5 * IQR)) | (cleaned_df > (Q3 + 1.5 * IQR))`
followed by `.any(axis=1)`: the row is flagged when any cell lies strictly
outside its column's fences.  Missing cells compare false. -/
def isOutlierRow (t : Table) (r : List Value) : Bool :=
  (List.range t.cols.length).any (fun j =>
    match iqrBounds t j, r.getD j Value.null with
    | some (lo, hi), .num x => decide (x < lo) || decide (hi < x)
    | _, _ => false)

/-- Whether the table holds any text cell.  Comparing an object column against
the fence Series raises a `TypeError` in pandas, so the Remove path fails on
such tables (spec §7/§9: failures propagate, no recovery). -/
def hasStrCell (t : Table) : Bool :=
  t.rows.any (fun r => r.any (fun v => match v with | .str _ => true | _ => false))

/-- Lines 126-131: the IQR removal branch.  `none` models the runtime failure
on tables with text cells; otherwise all flagged rows are dropped:
`cleaned_df = cleaned_df[~is_outlier.any(axis=1)]`. -/
def removeOutliersIQR (t : Table) : Option Table :=
  if hasStrCell t then none
  else some { cols := t.cols, rows := t.rows.filter (fun r => !isOutlierRow t r) }

/-- Lines 114-134: the Clean Data button handler.  The working copy is
winsorized when the selected method equals `"Winsorize"`, passed through IQR
removal when it equals the literal `"Remove"`, and returned unchanged
otherwise. -/
def applyCleanData (handleOutliers : Bool) (method : String) (t : Table) : Option Table :=
  if handleOutliers then
    if method = "Winsorize" then some (winsorizeTable t)
    else if method = "Remove" then removeOutliersIQR t
    else some t
  else some t

/-- Lines 12-18: one script rerun with a file uploaded.  `df = pd.read_csv(...)`
reads the upload, and `cleaned_df` is set to a copy of it only when the key is
absent from the session state: `if "cleaned_df" not in st.session_state:
st.session_state.cleaned_df = df.copy()`. -/
def uploadRerun (sess : Option Table) (uploaded : Table) : Option Table :=
  match sess with
  | none => some uploaded
  | some w => some w

/-! ### C9: CSV export.  `to_csv`/`read_csv` are pandas library code, not part
of this repository, so the serialisation is modelled from the spec's export
scenario (§8: the written file's row/column counts match the in-memory table
and re-reading reproduces the same values). -/

/-- Modelled from the spec: split a character stream at a separator, the
inverse of joining fields with it. -/
def splitSep (sep : Char) : List Char → List (List Char)
  | [] => [[]]
  | c :: rest =>
    let r := splitSep sep rest
    if c = sep then [] :: r else (c :: r.headD []) :: r.tail

/-- Modelled from the spec: join fields with a separator character. -/
def joinSep (sep : Char) : List (List Char) → List Char
  | [] => []
  | [x] => x
  | x :: y :: t => x ++ sep :: joinSep sep (y :: t)

/-- Modelled from the spec: decimal digits of a natural number. -/
def natChars (n : ℕ) : List Char := Nat.toDigits 10 n

/-- Modelled from the spec: rendering of an integer. -/
def intChars (i : ℤ) : List Char :=
  if i < 0 then '-' :: natChars i.natAbs else natChars i.natAbs

/-- Modelled from the spec: rendering of a rational cell value. -/
def ratChars (q : ℚ) : List Char :=
  if q.den = 1 then intChars q.num else intChars q.num ++ '/' :: natChars q.den

/-- Modelled from the spec: one CSV field per cell; a missing cell is written
as the empty field, as `to_csv` does. -/
def showValueChars : Value → List Char
  | .null => []
  | .num q => ratChars q
  | .str s => s.toList

/-- Modelled from the spec: read back a natural number field. -/
def parseNatChars (cs : List Char) : Option ℕ :=
  if cs.isEmpty then none
  else if cs.all Char.isDigit then
    some (cs.foldl (fun a c => 10 * a + (c.toNat - 48)) 0)
  else none

/-- Modelled from the spec: read back a rational field. -/
def parseRatChars (cs : List Char) : Option ℚ :=
  let p := match cs with
    | '-' :: r => (true, r)
    | _ => (false, cs)
  match splitSep '/' p.2 with
  | [ns] => (parseNatChars ns).map (fun n => if p.1 then -(n : ℚ) else (n : ℚ))
  | [ns, ds] =>
    match parseNatChars ns, parseNatChars ds with
    | some n, some d =>
      if d = 0 then none
      else some ((if p.1 then -(n : ℚ) else (n : ℚ)) / (d : ℚ))
    | _, _ => none
  | _ => none

/-- Modelled from the spec: value inference on re-reading a field, as
`read_csv` infers empty fields as missing and numeric text as numbers. -/
def parseValueChars (cs : List Char) : Value :=
  if cs.isEmpty then Value.null
  else
    match parseRatChars cs with
    | some q => Value.num q
    | none => Value.str (String.mk cs)

/-- Modelled from the spec: the field matrix of the written CSV — a header
line of column names followed by one line of rendered cells per row
(`index=False`: no index column). -/
def csvLines (t : Table) : List (List (List Char)) :=
  (t.cols.map String.toList) :: t.rows.map (fun r => r.map showValueChars)

/-- Modelled from the spec: the CSV text written by
`to_csv(path, index=False)`. -/
def toCsvContent (t : Table) : List Char :=
  joinSep '\n' ((csvLines t).map (joinSep ','))

/-- Modelled from the spec: re-reading the written CSV text. -/
def fromCsvContent (cs : List Char) : Option Table :=
  match (splitSep '\n' cs).map (splitSep ',') with
  | [] => none
  | header :: dataRows =>
    some { cols := header.map String.mk
           rows := dataRows.map (fun fields => fields.map parseValueChars) }

/-- Lines 147-156: `os.path.join("exports", filename)` with the fixed export
directory. -/
def exportPath (f : String) : String := "exports/" ++ f

/-- Lines 154-157: the export writes the current Working Table's CSV text at
the joined path. -/
def exportCleaned (t : Table) (f : String) : String × List Char :=
  (exportPath f, toCsvContent t)

/-! ### Example tables used as concrete instances -/

/-- A table with one column and no rows. -/
def emptyRowsTable : Table := { cols := ["a"], rows := [] }

/-- A small fully populated two-column table. -/
def exTableAB : Table :=
  { cols := ["a", "b"]
    rows := [[Value.num 1, Value.str "x"], [Value.null, Value.str "y"],
             [Value.num 3, Value.null]] }

/-! ### Concrete tables for the IQR claims -/

/-- `[1, 1, 1, 100]` in one numeric column: the 100 is IQR-flagged. -/
def exTableX : Table :=
  { cols := ["x"], rows := [[Value.num 1], [Value.num 1], [Value.num 1], [Value.num 100]] }

/-- `exTableX` after IQR removal. -/
def exTableXafter : Table :=
  { cols := ["x"], rows := [[Value.num 1], [Value.num 1], [Value.num 1]] }

/-- `[0, 0, 0, 0, 0, 0, 40, 40, 800]`: the first IQR pass removes only the 800,
but the recomputed fences of the remaining eight rows flag both 40s. -/
def tableC6 : Table :=
  { cols := ["x"]
    rows := [[Value.num 0], [Value.num 0], [Value.num 0], [Value.num 0],
             [Value.num 0], [Value.num 0], [Value.num 40], [Value.num 40],
             [Value.num 800]] }

/-- `tableC6` after one IQR pass. -/
def tableC6u : Table :=
  { cols := ["x"]
    rows := [[Value.num 0], [Value.num 0], [Value.num 0], [Value.num 0],
             [Value.num 0], [Value.num 0], [Value.num 40], [Value.num 40]] }

/-- `tableC6` after two IQR passes. -/
def tableC6v : Table :=
  { cols := ["x"]
    rows := [[Value.num 0], [Value.num 0], [Value.num 0], [Value.num 0],
             [Value.num 0], [Value.num 0]] }

/-- A concrete table for the export round trip. -/
def exportTableW : Table :=
  { cols := ["a", "b"]
    rows := [[Value.num 1, Value.str "x"], [Value.null, Value.num 2]] }

/-! ### Helper lemmas -/

theorem cellNotNull_eq_true_iff (t : Table) (r : List Value) (c : String) :
    cellNotNull t r c = true ↔ r.getD (t.cols.indexOf c) Value.null ≠ Value.null := by
  unfold cellNotNull
  rcases r.getD (t.cols.indexOf c) Value.null with q | s | _ <;> simp

/-! ### C1 -/

/-- C1: for every working table and every non-empty set of target column names
that are columns of the table, the missing-value drop returns exactly the rows
in which every target column is non-null, so every surviving row is non-null
in every target column, and the row count does not grow. -/
theorem dropna_keeps_exactly_complete_rows (t : Table) (C : List String)
    (hne : C ≠ []) (hsub : ∀ c ∈ C, c ∈ t.cols) :
    (dropnaSubset t C).rows.length ≤ t.rows.length ∧
    ∀ r, r ∈ (dropnaSubset t C).rows ↔
      r ∈ t.rows ∧ ∀ c ∈ C, r.getD (t.cols.indexOf c) Value.null ≠ Value.null := by
  constructor
  · exact List.length_filter_le _ _
  · intro r
    simp only [dropnaSubset, List.mem_filter, List.all_eq_true]
    constructor
    · rintro ⟨hmem, hall⟩
      exact ⟨hmem, fun c hc => (cellNotNull_eq_true_iff t r c).1 (hall c hc)⟩
    · rintro ⟨hmem, hall⟩
      exact ⟨hmem, fun c hc => (cellNotNull_eq_true_iff t r c).2 (hall c hc)⟩

/-- Witness for C1 at a concrete table and column selection. -/
theorem dropna_keeps_exactly_complete_rows_witness :
    (dropnaSubset exTableAB ["a"]).rows.length ≤ exTableAB.rows.length :=
  (dropna_keeps_exactly_complete_rows exTableAB ["a"] (by decide)
    (by intro c hc; simp at hc; simp [hc, exTableAB])).1

/-! ### C8 -/

/-- C8 counterexample: after a first upload created the Working Table, a rerun
with a different uploaded file does not replace it: the stale table survives. -/
theorem upload_does_not_replace_counterexample :
    uploadRerun (uploadRerun none exTableAB) emptyRowsTable ≠ some emptyRowsTable := by
  decide

/-- C8 (amended): uploading creates the Working Table from the uploaded CSV
only when the session has no Working Table yet; an upload in a session that
already holds a Working Table leaves it unchanged. -/
theorem upload_initializes_only_once (df : Table) :
    uploadRerun none df = some df ∧ ∀ w : Table, uploadRerun (some w) df = some w :=
  ⟨rfl, fun _ => rfl⟩

/-! ### C10 -/

/-- C10: both row-removing operations return a row sequence that is a sublist
(order-preserving, duplication-free selection) of the input row sequence. -/
theorem row_removal_preserves_row_order (t : Table) (C : List String) :
    (dropnaSubset t C).rows.Sublist t.rows ∧
    ∀ u, removeOutliersIQR t = some u → u.rows.Sublist t.rows := by
  refine ⟨List.filter_sublist _, fun u hu => ?_⟩
  unfold removeOutliersIQR at hu
  split at hu
  · exact absurd hu (by simp)
  · cases hu
    exact List.filter_sublist _

/-- Witness for C10 at a concrete table whose IQR removal succeeds. -/
theorem row_removal_preserves_row_order_witness :
    (dropnaSubset emptyRowsTable ["a"]).rows.Sublist emptyRowsTable.rows ∧
    { cols := ["a"], rows := ([] : List (List Value)) :
        Table }.rows.Sublist emptyRowsTable.rows :=
  ⟨(row_removal_preserves_row_order emptyRowsTable ["a"]).1,
   (row_removal_preserves_row_order emptyRowsTable ["a"]).2 _ rfl⟩

/-! ### C7 -/

/-- C7: the three Working-Table operations preserve the column-name list:
row-dropping steps remove rows only and winsorization rewrites cell values in
place. -/
theorem operations_preserve_columns (t : Table) (C : List String) :
    (dropnaSubset t C).cols = t.cols ∧ (winsorizeTable t).cols = t.cols ∧
    ∀ u, removeOutliersIQR t = some u → u.cols = t.cols := by
  refine ⟨rfl, rfl, fun u hu => ?_⟩
  unfold removeOutliersIQR at hu
  split at hu
  · exact absurd hu (by simp)
  · cases hu
    rfl

/-- Witness for C7 at a concrete table whose IQR removal succeeds. -/
theorem operations_preserve_columns_witness :
    { cols := ["a"], rows := ([] : List (List Value)) : Table }.cols
      = emptyRowsTable.cols :=
  (operations_preserve_columns emptyRowsTable ["a"]).2.2 _ rfl

/-! ### Concrete evaluation helpers (quantiles involve `ℚ` arithmetic that the
kernel does not reduce, so concrete runs are assembled from these lemmas). -/

theorem quantileSorted_eval (v : List ℚ) (q r : ℚ) (i : ℕ)
    (hfloor : ⌊q * ((v.length : ℚ) - 1)⌋ = (i : ℤ))
    (hval : v.getD i 0 + (q * ((v.length : ℚ) - 1) - (i : ℚ)) *
      (v.getD (i + 1) (v.getD i 0) - v.getD i 0) = r) :
    quantileSorted v q = r := by
  unfold quantileSorted
  simp only [hfloor, Int.toNat_natCast]
  exact hval

theorem colQuantile_eval (c : List Value) (vs : List ℚ) (q r : ℚ)
    (hs : List.insertionSort (· ≤ ·) (colNums c) = vs)
    (hne : vs.isEmpty = false)
    (hq : quantileSorted vs q = r) :
    colQuantile c q = some r := by
  unfold colQuantile
  rw [hs]
  simp [hne, hq]

theorem iqrBounds_eval (t : Table) (j : ℕ) (q1 q3 lo hi : ℚ)
    (hdt : colNumericDtype (getCol t j) = true)
    (h1 : colQuantile (getCol t j) (1/4) = some q1)
    (h3 : colQuantile (getCol t j) (3/4) = some q3)
    (hlo : q1 - 3/2 * (q3 - q1) = lo)
    (hhi : q3 + 3/2 * (q3 - q1) = hi) :
    iqrBounds t j = some (lo, hi) := by
  unfold iqrBounds
  simp only [hdt, if_true, h1, h3, hlo, hhi]

theorem isOutlierRow_single_inside (t : Table) (r : List Value) (lo hi x : ℚ)
    (hcols : t.cols.length = 1)
    (hb : iqrBounds t 0 = some (lo, hi))
    (hx : r.getD 0 Value.null = Value.num x)
    (hge : lo ≤ x) (hle : x ≤ hi) :
    isOutlierRow t r = false := by
  have hnlo : ¬ (x < lo) := not_lt.2 hge
  have hnhi : ¬ (hi < x) := not_lt.2 hle
  unfold isOutlierRow
  rw [hcols, show List.range 1 = [0] from rfl]
  simp only [List.any_cons, List.any_nil, Bool.or_false]
  rw [hb, hx]
  simp [hnlo, hnhi]

theorem isOutlierRow_single_above (t : Table) (r : List Value) (lo hi x : ℚ)
    (hcols : t.cols.length = 1)
    (hb : iqrBounds t 0 = some (lo, hi))
    (hx : r.getD 0 Value.null = Value.num x)
    (hgt : hi < x) :
    isOutlierRow t r = true := by
  unfold isOutlierRow
  rw [hcols, show List.range 1 = [0] from rfl]
  simp only [List.any_cons, List.any_nil, Bool.or_false]
  rw [hb, hx]
  simp [hgt]

theorem iqrBounds_exTableX : iqrBounds exTableX 0 = some (-289/8, 503/8) := by
  refine iqrBounds_eval _ _ 1 (103/4) _ _ (by decide) ?_ ?_ (by norm_num) (by norm_num)
  · refine colQuantile_eval _ [1, 1, 1, 100] _ _
      (List.Sorted.insertionSort_eq (by decide)) rfl ?_
    refine quantileSorted_eval _ _ _ 0 (by norm_num [Int.floor_eq_iff]) ?_
    norm_num
  · refine colQuantile_eval _ [1, 1, 1, 100] _ _
      (List.Sorted.insertionSort_eq (by decide)) rfl ?_
    refine quantileSorted_eval _ _ _ 2 (by norm_num [Int.floor_eq_iff]) ?_
    norm_num

theorem removeOutliersIQR_exTableX : removeOutliersIQR exTableX = some exTableXafter := by
  have h1 : isOutlierRow exTableX [Value.num 1] = false :=
    isOutlierRow_single_inside _ _ _ _ 1 rfl iqrBounds_exTableX rfl
      (by norm_num) (by norm_num)
  have h100 : isOutlierRow exTableX [Value.num 100] = true :=
    isOutlierRow_single_above _ _ _ _ 100 rfl iqrBounds_exTableX rfl (by norm_num)
  have hfilter : exTableX.rows.filter (fun r => !isOutlierRow exTableX r)
      = exTableXafter.rows := by
    show List.filter _ [[Value.num 1], [Value.num 1], [Value.num 1], [Value.num 100]] = _
    simp only [List.filter_cons, List.filter_nil, h1, h100, Bool.not_false,
      Bool.not_true, if_true, Bool.false_eq_true, if_false]
    rfl
  unfold removeOutliersIQR
  rw [show hasStrCell exTableX = false from rfl]
  simp only [Bool.false_eq_true, if_false, hfilter]
  rfl

/-! ### C2 -/

/-- C2 (code bug): the select box offers the label `"Remove outliers"` but the
Clean Data handler branches on the literal `"Remove"`, so choosing the removal
method leaves the Working Table unchanged even though the IQR policy would drop
a row. -/
theorem remove_outliers_selection_is_inert :
    applyCleanData true "Remove outliers" exTableX = some exTableX ∧
    removeOutliersIQR exTableX ≠ some exTableX := by
  refine ⟨rfl, ?_⟩
  rw [removeOutliersIQR_exTableX]
  decide

/-! ### C3 -/

theorem isOutlierRow_eq_true_iff (t : Table) (r : List Value) :
    isOutlierRow t r = true ↔
    ∃ j < t.cols.length, ∃ x lo hi, iqrBounds t j = some (lo, hi) ∧
      r.getD j Value.null = Value.num x ∧ (x < lo ∨ hi < x) := by
  unfold isOutlierRow
  rw [List.any_eq_true]
  constructor
  · rintro ⟨j, hj, hpred⟩
    rw [List.mem_range] at hj
    rcases hbj : iqrBounds t j with _ | ⟨lo, hi⟩
    · rw [hbj] at hpred
      simp at hpred
    · rcases hvj : r.getD j Value.null with x | s | _ <;> rw [hbj, hvj] at hpred
      · simp only [Bool.or_eq_true, decide_eq_true_eq] at hpred
        exact ⟨j, hj, x, lo, hi, hbj, hvj, hpred⟩
      · simp at hpred
      · simp at hpred
  · rintro ⟨j, hj, x, lo, hi, hb, hx, hor⟩
    refine ⟨j, List.mem_range.2 hj, ?_⟩
    rw [hb, hx]
    simp only [Bool.or_eq_true, decide_eq_true_eq]
    exact hor

theorem iqrBounds_eq_some_iff (t : Table) (j : ℕ) (lo hi : ℚ) :
    iqrBounds t j = some (lo, hi) ↔
    colNumericDtype (getCol t j) = true ∧ ∃ q1 q3,
      colQuantile (getCol t j) (1/4) = some q1 ∧
      colQuantile (getCol t j) (3/4) = some q3 ∧
      lo = q1 - 3/2 * (q3 - q1) ∧ hi = q3 + 3/2 * (q3 - q1) := by
  unfold iqrBounds
  cases hdt : colNumericDtype (getCol t j)
  · simp [hdt]
  · simp only [hdt, if_true, true_and]
    rcases h1 : colQuantile (getCol t j) (1/4) with _ | q1 <;>
      rcases h3 : colQuantile (getCol t j) (3/4) with _ | q3 <;>
      simp [h1, h3, eq_comm]

/-- C3: IQR removal drops a row exactly when some column's cell value falls
strictly below `Q1 - 1.5·IQR` or strictly above `Q3 + 1.5·IQR`, with the
quartiles computed per column on the input table; in particular no unflagged
row is removed. -/
theorem iqr_removal_drops_exactly_flagged (t u : Table)
    (hu : removeOutliersIQR t = some u) :
    u.rows = t.rows.filter (fun r => !isOutlierRow t r) ∧
    ∀ r ∈ t.rows, (r ∈ u.rows ↔
      ¬ ∃ j < t.cols.length, ∃ x q1 q3,
          colNumericDtype (getCol t j) = true ∧
          colQuantile (getCol t j) (1/4) = some q1 ∧
          colQuantile (getCol t j) (3/4) = some q3 ∧
          r.getD j Value.null = Value.num x ∧
          (x < q1 - 3/2 * (q3 - q1) ∨ q3 + 3/2 * (q3 - q1) < x)) := by
  have hrows : u.rows = t.rows.filter (fun r => !isOutlierRow t r) := by
    unfold removeOutliersIQR at hu
    split at hu
    · exact absurd hu (by simp)
    · cases hu
      rfl
  refine ⟨hrows, fun r hr => ?_⟩
  rw [hrows, List.mem_filter]
  have hflag : isOutlierRow t r = true ↔
      ∃ j < t.cols.length, ∃ x q1 q3,
        colNumericDtype (getCol t j) = true ∧
        colQuantile (getCol t j) (1/4) = some q1 ∧
        colQuantile (getCol t j) (3/4) = some q3 ∧
        r.getD j Value.null = Value.num x ∧
        (x < q1 - 3/2 * (q3 - q1) ∨ q3 + 3/2 * (q3 - q1) < x) := by
    rw [isOutlierRow_eq_true_iff]
    constructor
    · rintro ⟨j, hj, x, lo, hi, hb, hx, hor⟩
      rcases (iqrBounds_eq_some_iff t j lo hi).1 hb with ⟨hdt, q1, q3, h1, h3, hlo, hhi⟩
      subst hlo hhi
      exact ⟨j, hj, x, q1, q3, hdt, h1, h3, hx, hor⟩
    · rintro ⟨j, hj, x, q1, q3, hdt, h1, h3, hx, hor⟩
      refine ⟨j, hj, x, q1 - 3/2 * (q3 - q1), q3 + 3/2 * (q3 - q1), ?_, hx, hor⟩
      exact (iqrBounds_eq_some_iff t j _ _).2 ⟨hdt, q1, q3, h1, h3, rfl, rfl⟩
  rw [← hflag]
  constructor
  · rintro ⟨-, hkeep⟩
    simp only [Bool.not_eq_true'] at hkeep
    simp [hkeep]
  · intro hnot
    refine ⟨hr, ?_⟩
    simp only [Bool.not_eq_true'] at hnot ⊢
    exact Bool.not_eq_true _ ▸ (Bool.eq_false_iff.2 fun h => hnot h)

/-- Witness for C3: the concrete run on `[1, 1, 1, 100]`. -/
theorem iqr_removal_drops_exactly_flagged_witness :
    exTableXafter.rows = exTableX.rows.filter (fun r => !isOutlierRow exTableX r) :=
  (iqr_removal_drops_exactly_flagged exTableX exTableXafter removeOutliersIQR_exTableX).1

/-! ### C6 -/

theorem iqrBounds_tableC6 : iqrBounds tableC6 0 = some (-60, 100) := by
  refine iqrBounds_eval _ _ 0 40 _ _ (by decide) ?_ ?_ (by norm_num) (by norm_num)
  · refine colQuantile_eval _ [0, 0, 0, 0, 0, 0, 40, 40, 800] _ _
      (List.Sorted.insertionSort_eq (by decide)) rfl ?_
    refine quantileSorted_eval _ _ _ 2 (by norm_num [Int.floor_eq_iff]) ?_
    norm_num
  · refine colQuantile_eval _ [0, 0, 0, 0, 0, 0, 40, 40, 800] _ _
      (List.Sorted.insertionSort_eq (by decide)) rfl ?_
    refine quantileSorted_eval _ _ _ 6 (by norm_num [Int.floor_eq_iff]) ?_
    norm_num

theorem removeOutliersIQR_tableC6 : removeOutliersIQR tableC6 = some tableC6u := by
  have h0 : isOutlierRow tableC6 [Value.num 0] = false :=
    isOutlierRow_single_inside _ _ _ _ 0 rfl iqrBounds_tableC6 rfl
      (by norm_num) (by norm_num)
  have h40 : isOutlierRow tableC6 [Value.num 40] = false :=
    isOutlierRow_single_inside _ _ _ _ 40 rfl iqrBounds_tableC6 rfl
      (by norm_num) (by norm_num)
  have h800 : isOutlierRow tableC6 [Value.num 800] = true :=
    isOutlierRow_single_above _ _ _ _ 800 rfl iqrBounds_tableC6 rfl (by norm_num)
  have hfilter : tableC6.rows.filter (fun r => !isOutlierRow tableC6 r)
      = tableC6u.rows := by
    show List.filter _ [[Value.num 0], [Value.num 0], [Value.num 0], [Value.num 0],
      [Value.num 0], [Value.num 0], [Value.num 40], [Value.num 40],
      [Value.num 800]] = _
    simp only [List.filter_cons, List.filter_nil, h0, h40, h800, Bool.not_false,
      Bool.not_true, if_true, Bool.false_eq_true, if_false]
    rfl
  unfold removeOutliersIQR
  rw [show hasStrCell tableC6 = false from rfl]
  simp only [Bool.false_eq_true, if_false, hfilter]
  rfl

theorem iqrBounds_tableC6u : iqrBounds tableC6u 0 = some (-15, 25) := by
  refine iqrBounds_eval _ _ 0 10 _ _ (by decide) ?_ ?_ (by norm_num) (by norm_num)
  · refine colQuantile_eval _ [0, 0, 0, 0, 0, 0, 40, 40] _ _
      (List.Sorted.insertionSort_eq (by decide)) rfl ?_
    refine quantileSorted_eval _ _ _ 1 (by norm_num [Int.floor_eq_iff]) ?_
    norm_num
  · refine colQuantile_eval _ [0, 0, 0, 0, 0, 0, 40, 40] _ _
      (List.Sorted.insertionSort_eq (by decide)) rfl ?_
    refine quantileSorted_eval _ _ _ 5 (by norm_num [Int.floor_eq_iff]) ?_
    norm_num

theorem removeOutliersIQR_tableC6u : removeOutliersIQR tableC6u = some tableC6v := by
  have h0 : isOutlierRow tableC6u [Value.num 0] = false :=
    isOutlierRow_single_inside _ _ _ _ 0 rfl iqrBounds_tableC6u rfl
      (by norm_num) (by norm_num)
  have h40 : isOutlierRow tableC6u [Value.num 40] = true :=
    isOutlierRow_single_above _ _ _ _ 40 rfl iqrBounds_tableC6u rfl (by norm_num)
  have hfilter : tableC6u.rows.filter (fun r => !isOutlierRow tableC6u r)
      = tableC6v.rows := by
    show List.filter _ [[Value.num 0], [Value.num 0], [Value.num 0], [Value.num 0],
      [Value.num 0], [Value.num 0], [Value.num 40], [Value.num 40]] = _
    simp only [List.filter_cons, List.filter_nil, h0, h40, Bool.not_false,
      Bool.not_true, if_true, Bool.false_eq_true, if_false]
    rfl
  unfold removeOutliersIQR
  rw [show hasStrCell tableC6u = false from rfl]
  simp only [Bool.false_eq_true, if_false, hfilter]
  rfl

/-- C6 counterexample: on `tableC6` the first IQR pass removes one row while
the second pass (fences recomputed on the filtered table) removes two, so the
second pass can remove strictly more rows than the first. -/
theorem iqr_second_pass_can_remove_more :
    removeOutliersIQR tableC6 = some tableC6u ∧
    removeOutliersIQR tableC6u = some tableC6v ∧
    tableC6.rows.length - tableC6u.rows.length <
      tableC6u.rows.length - tableC6v.rows.length :=
  ⟨removeOutliersIQR_tableC6, removeOutliersIQR_tableC6u, by decide⟩

/-- C6 (amended): each IQR pass never increases the row count, so after two
passes the counts are non-increasing (`|t| ≥ |u| ≥ |v|`); the second pass may
remove zero rows, but it can also remove more rows than the first pass did. -/
theorem iqr_pass_row_counts_nonincreasing (t u v : Table)
    (hu : removeOutliersIQR t = some u) (hv : removeOutliersIQR u = some v) :
    v.rows.length ≤ u.rows.length ∧ u.rows.length ≤ t.rows.length := by
  have key : ∀ a b : Table, removeOutliersIQR a = some b →
      b.rows.length ≤ a.rows.length := by
    intro a b hab
    unfold removeOutliersIQR at hab
    split at hab
    · exact absurd hab (by simp)
    · cases hab
      exact List.length_filter_le _ _
  exact ⟨key u v hv, key t u hu⟩

/-- Witness for C6's amended statement on the concrete two-pass run. -/
theorem iqr_pass_row_counts_nonincreasing_witness :
    tableC6v.rows.length ≤ tableC6u.rows.length ∧
    tableC6u.rows.length ≤ tableC6.rows.length :=
  iqr_pass_row_counts_nonincreasing tableC6 tableC6u tableC6v
    removeOutliersIQR_tableC6 removeOutliersIQR_tableC6u

/-! ### Winsorization lemmas -/

theorem mapFromIdx_length (f : ℕ → α → β) (i : ℕ) (l : List α) :
    (mapFromIdx f i l).length = l.length := by
  induction l generalizing i with
  | nil => rfl
  | cons a as ih => simp [mapFromIdx, ih]

theorem mapFromIdx_getD (f : ℕ → α → β) (i k : ℕ) (l : List α) (d : α) (d' : β)
    (h : k < l.length) :
    (mapFromIdx f i l).getD k d' = f (i + k) (l.getD k d) := by
  induction l generalizing i k with
  | nil => simp at h
  | cons a as ih =>
    cases k with
    | zero => simp [mapFromIdx]
    | succ k' =>
      simp only [mapFromIdx, List.getD_cons_succ]
      rw [ih (i + 1) k' (by simpa using h)]
      have hidx : i + 1 + k' = i + (k' + 1) := by omega
      rw [hidx]

theorem winsLo_le_winsHi (xs : List ℚ) (hne : xs ≠ []) : winsLo xs ≤ winsHi xs := by
  have hn : 0 < xs.length := List.length_pos.2 hne
  have hslen : (List.insertionSort (· ≤ ·) xs).length = xs.length :=
    List.length_insertionSort _ _
  have hk : xs.length / 20 < xs.length := Nat.div_lt_self hn (by norm_num)
  have hk2 : xs.length / 20 ≤ xs.length - xs.length / 20 - 1 := by omega
  have hk3 : xs.length - xs.length / 20 - 1 < xs.length := by omega
  have hsorted : List.Sorted (· ≤ ·) (List.insertionSort (· ≤ ·) xs) :=
    List.sorted_insertionSort _ _
  unfold winsLo winsHi
  rw [List.getD_eq_getElem _ _ (by rw [hslen]; exact hk),
    List.getD_eq_getElem _ _ (by rw [hslen]; exact hk3)]
  exact hsorted.rel_get_of_le (by simpa [Fin.mk_le_mk] using hk2)

theorem clip_of_between (lo hi x : ℚ) (h1 : lo ≤ x) (h2 : x ≤ hi) :
    min hi (max lo x) = x := by
  rw [max_eq_right h1, min_eq_right h2]

theorem clip_of_lt_lo (lo hi x : ℚ) (hlohi : lo ≤ hi) (h : x < lo) :
    min hi (max lo x) = lo := by
  rw [max_eq_left h.le, min_eq_right hlohi]

theorem clip_of_hi_lt (lo hi x : ℚ) (hlohi : lo ≤ hi) (h : hi < x) :
    min hi (max lo x) = hi := by
  rw [max_eq_right (hlohi.trans h.le), min_eq_left h.le]

theorem clip_idem (lo hi x : ℚ) (hlohi : lo ≤ hi) :
    min hi (max lo (min hi (max lo x))) = min hi (max lo x) := by
  have h1 : lo ≤ min hi (max lo x) := le_min hlohi (le_max_left _ _)
  have h2 : min hi (max lo x) ≤ hi := min_le_left _ _
  exact clip_of_between lo hi _ h1 h2

theorem insertionSort_map_monotone (f : ℚ → ℚ) (hf : Monotone f) (xs : List ℚ) :
    List.insertionSort (· ≤ ·) (xs.map f)
      = (List.insertionSort (· ≤ ·) xs).map f := by
  have hsorted2 : List.Sorted (· ≤ ·) ((List.insertionSort (· ≤ ·) xs).map f) :=
    List.Pairwise.map f (fun a b hab => hf hab)
      (List.sorted_insertionSort (· ≤ ·) xs)
  exact List.eq_of_perm_of_sorted
    ((List.perm_insertionSort _ _).trans ((List.perm_insertionSort _ xs).symm.map f))
    (List.sorted_insertionSort (· ≤ ·) (xs.map f)) hsorted2

theorem winsLo_winsorizeCol (xs : List ℚ) (hne : xs ≠ []) :
    winsLo (winsorizeCol xs) = winsLo xs := by
  have hn : 0 < xs.length := List.length_pos.2 hne
  have hk : xs.length / 20 < xs.length := Nat.div_lt_self hn (by norm_num)
  have hmono : Monotone (fun x => min (winsHi xs) (max (winsLo xs) x)) := by
    intro a b hab
    exact min_le_min le_rfl (max_le_max le_rfl hab)
  have hlohi := winsLo_le_winsHi xs hne
  have key : List.insertionSort (· ≤ ·) (winsorizeCol xs)
      = (List.insertionSort (· ≤ ·) xs).map
        (fun x => min (winsHi xs) (max (winsLo xs) x)) :=
    insertionSort_map_monotone _ hmono xs
  have hwlen : (winsorizeCol xs).length = xs.length := List.length_map _ _
  unfold winsLo
  rw [key, hwlen]
  rw [List.getD_eq_getElem _ _ (by
      rw [List.length_map, List.length_insertionSort]; exact hk),
    List.getElem_map,
    ← List.getD_eq_getElem _ (0 : ℚ) (by rw [List.length_insertionSort]; exact hk)]
  exact clip_of_between _ _ _ le_rfl hlohi

theorem winsHi_winsorizeCol (xs : List ℚ) (hne : xs ≠ []) :
    winsHi (winsorizeCol xs) = winsHi xs := by
  have hn : 0 < xs.length := List.length_pos.2 hne
  have hk3 : xs.length - xs.length / 20 - 1 < xs.length := by omega
  have hmono : Monotone (fun x => min (winsHi xs) (max (winsLo xs) x)) := by
    intro a b hab
    exact min_le_min le_rfl (max_le_max le_rfl hab)
  have hlohi := winsLo_le_winsHi xs hne
  have key : List.insertionSort (· ≤ ·) (winsorizeCol xs)
      = (List.insertionSort (· ≤ ·) xs).map
        (fun x => min (winsHi xs) (max (winsLo xs) x)) :=
    insertionSort_map_monotone _ hmono xs
  have hwlen : (winsorizeCol xs).length = xs.length := List.length_map _ _
  unfold winsHi
  rw [key, hwlen]
  rw [List.getD_eq_getElem _ _ (by
      rw [List.length_map, List.length_insertionSort]; exact hk3),
    List.getElem_map,
    ← List.getD_eq_getElem _ (0 : ℚ) (by rw [List.length_insertionSort]; exact hk3)]
  exact clip_of_between _ _ _ hlohi le_rfl

/-! ### C5 -/

/-- C5: winsorization at the fixed 5%/5% limits is idempotent on a numeric
column: a second application returns the already-winsorized column unchanged. -/
theorem winsorize_idempotent (xs : List ℚ) :
    winsorizeCol (winsorizeCol xs) = winsorizeCol xs := by
  rcases eq_or_ne xs [] with rfl | hne
  · rfl
  · have hlohi := winsLo_le_winsHi xs hne
    conv_lhs => rw [winsorizeCol]
    rw [winsLo_winsorizeCol xs hne, winsHi_winsorizeCol xs hne]
    show (winsorizeCol xs).map _ = _
    unfold winsorizeCol
    rw [List.map_map]
    apply List.map_congr_left
    intro x _
    exact clip_idem _ _ _ hlohi

/-! ### C4 -/

theorem colNums_length_of_allNum (c : List Value) (h : colAllNum c = true) :
    (colNums c).length = c.length := by
  induction c with
  | nil => rfl
  | cons v vs ih =>
    cases v with
    | num q =>
      simp only [colAllNum, List.all_cons, Bool.and_eq_true] at h
      simp only [colNums, List.filterMap_cons, List.length_cons]
      exact congrArg (· + 1) (ih h.2)
    | str s => simp [colAllNum] at h
    | null => simp [colAllNum] at h

theorem colNums_getD_of_allNum (c : List Value) (i : ℕ) (h : colAllNum c = true)
    (hi : i < c.length) :
    c.getD i Value.null = Value.num ((colNums c).getD i 0) := by
  induction c generalizing i with
  | nil => simp at hi
  | cons v vs ih =>
    cases v with
    | num q =>
      simp only [colAllNum, List.all_cons, Bool.and_eq_true] at h
      cases i with
      | zero => simp [colNums]
      | succ i' =>
        simp only [colNums, List.filterMap_cons, List.getD_cons_succ]
        exact ih i' h.2 (by simpa using hi)
    | str s => simp [colAllNum] at h
    | null => simp [colAllNum] at h

theorem getCol_length (t : Table) (j : ℕ) : (getCol t j).length = t.rows.length :=
  List.length_map _ _

theorem getCol_getD (t : Table) (j i : ℕ) (hi : i < t.rows.length) :
    (getCol t j).getD i Value.null = (t.rows.getD i []).getD j Value.null := by
  unfold getCol
  rw [List.getD_eq_getElem _ _ (by rw [List.length_map]; exact hi),
    List.getElem_map, ← List.getD_eq_getElem t.rows [] hi]

theorem winsorizeTable_rows_length (t : Table) :
    (winsorizeTable t).rows.length = t.rows.length :=
  mapFromIdx_length _ _ _

theorem colNumericDtype_of_allNum (c : List Value) (h : colAllNum c = true) :
    colNumericDtype c = true := by
  induction c with
  | nil => rfl
  | cons v vs ih =>
    cases v with
    | num q =>
      simp only [colAllNum, List.all_cons, Bool.and_eq_true] at h
      simp only [colNumericDtype, List.all_cons, Bool.and_eq_true]
      exact ⟨trivial, ih h.2⟩
    | str s => simp [colAllNum] at h
    | null => simp [colAllNum] at h

theorem colOpts_length (c : List Value) : (colOpts c).length = c.length :=
  List.length_map _ _

theorem winsorizeDtypeCol_length (cells : List (Option ℚ)) :
    (winsorizeDtypeCol cells).length = cells.length :=
  List.length_map _ _

theorem colOpts_of_allNum (c : List Value) (h : colAllNum c = true) :
    colOpts c = (colNums c).map some := by
  induction c with
  | nil => rfl
  | cons v vs ih =>
    cases v with
    | num q =>
      simp only [colAllNum, List.all_cons, Bool.and_eq_true] at h
      simp only [colOpts, colNums, List.map_cons, List.filterMap_cons]
      exact congrArg (some q :: ·) (ih h.2)
    | str s => simp [colAllNum] at h
    | null => simp [colAllNum] at h

theorem filterMap_id_map_some (xs : List ℚ) : (xs.map some).filterMap id = xs := by
  induction xs with
  | nil => rfl
  | cons x t ih =>
    simp only [List.map_cons, List.filterMap_cons, id]
    exact congrArg (x :: ·) ih

theorem winsorizeDtypeCol_map_some (xs : List ℚ) :
    winsorizeDtypeCol (xs.map some) = (winsorizeCol xs).map some := by
  rcases eq_or_ne xs [] with rfl | hne
  · rfl
  · have hn : 0 < xs.length := List.length_pos.2 hne
    have hk : xs.length / 20 < xs.length := Nat.div_lt_self hn (by norm_num)
    have hk3 : xs.length - xs.length / 20 - 1 < xs.length := by omega
    unfold winsorizeDtypeCol
    rw [filterMap_id_map_some, List.length_map, List.map_map]
    have hrhs : winsorizeCol xs
        = xs.map (fun x => min (winsHi xs) (max (winsLo xs) x)) := rfl
    rw [hrhs, List.map_map]
    apply List.map_congr_left
    intro x _
    show winsorizeDtypeCell xs.length (List.insertionSort (· ≤ ·) xs) (some x)
      = some (min (winsHi xs) (max (winsLo xs) x))
    rw [winsorizeDtypeCell, List.length_insertionSort,
      if_pos hk, if_pos hk3]
    rfl

theorem getCol_winsorizeTable_cell (t : Table) (j i : ℕ)
    (hw : ∀ r ∈ t.rows, r.length = t.cols.length)
    (hj : j < t.cols.length) (hi : i < t.rows.length) :
    (getCol (winsorizeTable t) j).getD i Value.null =
      if colNumericDtype (getCol t j) then
        optValue ((winsorizeDtypeCol (colOpts (getCol t j))).getD i none)
      else (getCol t j).getD i Value.null := by
  have hrowmem : t.rows.getD i [] ∈ t.rows := by
    rw [List.getD_eq_getElem t.rows [] hi]
    exact List.getElem_mem _
  have hrlen : (t.rows.getD i []).length = t.cols.length := hw _ hrowmem
  have hwrows : (winsorizeTable t).rows.getD i [] =
      mapFromIdx (fun j v =>
        if colNumericDtype (getCol t j) then
          optValue ((winsorizeDtypeCol (colOpts (getCol t j))).getD i none)
        else v) 0 (t.rows.getD i []) := by
    show (mapFromIdx _ 0 t.rows).getD i [] = _
    rw [mapFromIdx_getD _ 0 i t.rows [] [] hi]
    rw [Nat.zero_add]
  rw [getCol_getD _ _ _ (by rw [winsorizeTable_rows_length]; exact hi)]
  rw [hwrows, mapFromIdx_getD _ 0 j _ Value.null Value.null (by rw [hrlen]; exact hj)]
  rw [Nat.zero_add, getCol_getD t j i hi]

theorem getCol_winsorizeTable_of_numericDtype (t : Table) (j : ℕ)
    (hw : ∀ r ∈ t.rows, r.length = t.cols.length)
    (hj : j < t.cols.length) (hdt : colNumericDtype (getCol t j) = true) :
    getCol (winsorizeTable t) j
      = (winsorizeDtypeCol (colOpts (getCol t j))).map optValue := by
  have hlen1 : (getCol (winsorizeTable t) j).length = t.rows.length := by
    rw [getCol_length, winsorizeTable_rows_length]
  have hlen2 : ((winsorizeDtypeCol (colOpts (getCol t j))).map optValue).length
      = t.rows.length := by
    rw [List.length_map, winsorizeDtypeCol_length, colOpts_length, getCol_length]
  apply List.ext_getElem (by rw [hlen1, hlen2])
  intro n h1 h2
  have hn : n < t.rows.length := by rw [← hlen1]; exact h1
  rw [← List.getD_eq_getElem _ Value.null h1, ← List.getD_eq_getElem _ Value.null h2]
  rw [getCol_winsorizeTable_cell t j n hw hj hn, hdt, if_pos rfl]
  rw [List.getD_eq_getElem _ Value.null h2, List.getElem_map,
    ← List.getD_eq_getElem _ (none : Option ℚ) (by
      rw [List.length_map] at h2
      exact h2)]

theorem getCol_winsorizeTable_of_object (t : Table) (j : ℕ)
    (hw : ∀ r ∈ t.rows, r.length = t.cols.length)
    (hj : j < t.cols.length) (hnot : colNumericDtype (getCol t j) = false) :
    getCol (winsorizeTable t) j = getCol t j := by
  have hlen1 : (getCol (winsorizeTable t) j).length = t.rows.length := by
    rw [getCol_length, winsorizeTable_rows_length]
  have hlen2 : (getCol t j).length = t.rows.length := getCol_length t j
  apply List.ext_getElem (by rw [hlen1, hlen2])
  intro n h1 h2
  have hn : n < t.rows.length := by rw [← hlen1]; exact h1
  rw [← List.getD_eq_getElem _ Value.null h1, ← List.getD_eq_getElem _ Value.null h2]
  rw [getCol_winsorizeTable_cell t j n hw hj hn, hnot]
  simp

theorem getCol_winsorizeTable_of_allNum (t : Table) (j : ℕ)
    (hw : ∀ r ∈ t.rows, r.length = t.cols.length)
    (hj : j < t.cols.length) (hall : colAllNum (getCol t j) = true) :
    getCol (winsorizeTable t) j
      = (winsorizeCol (colNums (getCol t j))).map Value.num := by
  rw [getCol_winsorizeTable_of_numericDtype t j hw hj
      (colNumericDtype_of_allNum _ hall),
    colOpts_of_allNum _ hall, winsorizeDtypeCol_map_some, List.map_map]
  apply List.map_congr_left
  intro x _
  rfl

/-- C4: winsorization transforms each float/int-dtype column independently by
scipy's rule — on a NaN-free numeric column this clips every value into
`[winsLo, winsHi]`, the 5th/95th-percentile values (order statistics at
`⌊0.05 n⌋` and `n - ⌊0.05 n⌋ - 1`), raising low values to the lower bound and
lowering high values to the upper bound; every non-numeric (object-dtype)
column is unchanged, the result is a function of the column's values, and the
row count is preserved.  NaN-bearing numeric-dtype columns are also fed to
scipy (clause on `colNumericDtype`), following the NaN-last argsort
semantics of `winsorizeDtypeCell`. -/
theorem winsorize_clips_numeric_columns (t : Table)
    (hw : ∀ r ∈ t.rows, r.length = t.cols.length) :
    (winsorizeTable t).cols = t.cols ∧
    (winsorizeTable t).rows.length = t.rows.length ∧
    (∀ j < t.cols.length, colNumericDtype (getCol t j) = false →
      getCol (winsorizeTable t) j = getCol t j) ∧
    (∀ j < t.cols.length, colNumericDtype (getCol t j) = true →
      getCol (winsorizeTable t) j
        = (winsorizeDtypeCol (colOpts (getCol t j))).map optValue) ∧
    (∀ j < t.cols.length, colAllNum (getCol t j) = true →
      getCol (winsorizeTable t) j
        = (winsorizeCol (colNums (getCol t j))).map Value.num) ∧
    (∀ xs : List ℚ, xs ≠ [] →
      winsLo xs ≤ winsHi xs ∧
      ∀ i < xs.length,
        (winsorizeCol xs).getD i 0
            = min (winsHi xs) (max (winsLo xs) (xs.getD i 0)) ∧
        (xs.getD i 0 < winsLo xs → (winsorizeCol xs).getD i 0 = winsLo xs) ∧
        (winsHi xs < xs.getD i 0 → (winsorizeCol xs).getD i 0 = winsHi xs) ∧
        (winsLo xs ≤ xs.getD i 0 → xs.getD i 0 ≤ winsHi xs →
          (winsorizeCol xs).getD i 0 = xs.getD i 0)) := by
  refine ⟨rfl, winsorizeTable_rows_length t, ?_, ?_, ?_, ?_⟩
  · intro j hj hnot
    exact getCol_winsorizeTable_of_object t j hw hj hnot
  · intro j hj hdt
    exact getCol_winsorizeTable_of_numericDtype t j hw hj hdt
  · intro j hj hall
    exact getCol_winsorizeTable_of_allNum t j hw hj hall
  · intro xs hne
    have hlohi := winsLo_le_winsHi xs hne
    refine ⟨hlohi, fun i hi => ?_⟩
    have hcell : (winsorizeCol xs).getD i 0
        = min (winsHi xs) (max (winsLo xs) (xs.getD i 0)) := by
      show (xs.map _).getD i 0 = _
      rw [List.getD_eq_getElem _ _ (by rw [List.length_map]; exact hi),
        List.getElem_map, ← List.getD_eq_getElem _ (0 : ℚ) hi]
    refine ⟨hcell, fun hlt => ?_, fun hgt => ?_, fun hge hle => ?_⟩
    · rw [hcell]
      exact clip_of_lt_lo _ _ _ hlohi hlt
    · rw [hcell]
      exact clip_of_hi_lt _ _ _ hlohi hgt
    · rw [hcell]
      exact clip_of_between _ _ _ hge hle

/-- Witness for C4 on a concrete mixed-type table. -/
theorem winsorize_clips_numeric_columns_witness :
    (winsorizeTable exTableAB).cols = exTableAB.cols :=
  (winsorize_clips_numeric_columns exTableAB (by decide)).1

theorem splitSep_ne_nil (sep : Char) (cs : List Char) : splitSep sep cs ≠ [] := by
  cases cs with
  | nil => simp [splitSep]
  | cons c rest =>
    simp only [splitSep]
    split <;> simp

theorem headD_cons_tail {α : Type _} (l : List α) (d : α) (h : l ≠ []) :
    l.headD d :: l.tail = l := by
  cases l with
  | nil => contradiction
  | cons a t => rfl

theorem splitSep_cons_self (sep : Char) (cs : List Char) :
    splitSep sep (sep :: cs) = [] :: splitSep sep cs := by
  simp [splitSep]

theorem splitSep_append_of_not_mem (sep : Char) (x cs : List Char) (h : sep ∉ x) :
    splitSep sep (x ++ cs)
      = (x ++ (splitSep sep cs).headD []) :: (splitSep sep cs).tail := by
  induction x with
  | nil =>
    simp only [List.nil_append]
    exact (headD_cons_tail _ _ (splitSep_ne_nil sep cs)).symm
  | cons a x ih =>
    have ha : a ≠ sep := fun hcontra => h (hcontra ▸ List.mem_cons_self a x)
    have hx : sep ∉ x := fun hmem => h (List.mem_cons_of_mem a hmem)
    simp only [List.cons_append, splitSep, if_neg ha]
    rw [show x.append cs = x ++ cs from rfl, ih hx]
    rfl

theorem splitSep_joinSep (sep : Char) (xss : List (List Char)) (hne : xss ≠ [])
    (hmem : ∀ xs ∈ xss, sep ∉ xs) :
    splitSep sep (joinSep sep xss) = xss := by
  induction xss with
  | nil => contradiction
  | cons x t ih =>
    cases t with
    | nil =>
      have hx : sep ∉ x := hmem x (List.mem_cons_self _ _)
      have := splitSep_append_of_not_mem sep x [] hx
      simpa [splitSep] using this
    | cons y t' =>
      have hx : sep ∉ x := hmem x (List.mem_cons_self _ _)
      have hih : splitSep sep (joinSep sep (y :: t')) = y :: t' :=
        ih (by simp) (fun xs hxs => hmem xs (List.mem_cons_of_mem _ hxs))
      show splitSep sep (x ++ sep :: joinSep sep (y :: t')) = x :: y :: t'
      rw [splitSep_append_of_not_mem sep x _ hx, splitSep_cons_self, hih]
      simp

theorem mem_joinSep (sep : Char) (xss : List (List Char)) (c : Char)
    (h : c ∈ joinSep sep xss) : c = sep ∨ ∃ xs ∈ xss, c ∈ xs := by
  induction xss with
  | nil => simp [joinSep] at h
  | cons x t ih =>
    cases t with
    | nil =>
      right
      exact ⟨x, List.mem_cons_self _ _, h⟩
    | cons y t' =>
      rw [show joinSep sep (x :: y :: t') = x ++ sep :: joinSep sep (y :: t')
        from rfl] at h
      rcases List.mem_append.1 h with hx | hrest
      · exact Or.inr ⟨x, List.mem_cons_self _ _, hx⟩
      · rcases List.mem_cons.1 hrest with hc | hjoin
        · exact Or.inl hc
        · rcases ih hjoin with hc | ⟨xs, hxs, hcx⟩
          · exact Or.inl hc
          · exact Or.inr ⟨xs, List.mem_cons_of_mem _ hxs, hcx⟩

theorem stringMk_toList (s : String) : String.mk s.toList = s := rfl

/-- C9: exporting a cleaned table to a user-chosen filename writes the CSV at
`exports/<filename>`; the written text has one header line plus one line per
row, every line has exactly one field per column, and re-reading the text
reproduces the table (round-trip), under the well-formedness side conditions
that make CSV text unambiguous: rectangular rows, at least one column, and no
separator characters inside rendered fields. -/
theorem export_writes_roundtrippable_csv (t : Table) (f : String)
    (hc : t.cols ≠ [])
    (hw : ∀ r ∈ t.rows, r.length = t.cols.length)
    (hcols : ∀ c ∈ t.cols, ',' ∉ c.toList ∧ '\n' ∉ c.toList)
    (hcells : ∀ r ∈ t.rows, ∀ v ∈ r,
      ',' ∉ showValueChars v ∧ '\n' ∉ showValueChars v ∧
      parseValueChars (showValueChars v) = v) :
    (exportCleaned t f).1 = "exports/" ++ f ∧
    fromCsvContent (exportCleaned t f).2 = some t ∧
    (splitSep '\n' (exportCleaned t f).2).length = t.rows.length + 1 ∧
    ∀ line ∈ splitSep '\n' (exportCleaned t f).2,
      (splitSep ',' line).length = t.cols.length := by
  have hsafe : ∀ fields ∈ csvLines t, fields ≠ [] ∧
      ∀ cs ∈ fields, ',' ∉ cs ∧ '\n' ∉ cs := by
    intro fields hf
    rcases List.mem_cons.1 hf with rfl | hf'
    · refine ⟨by simpa using hc, ?_⟩
      intro cs hcs
      rcases List.mem_map.1 hcs with ⟨c, hcmem, rfl⟩
      exact hcols c hcmem
    · rcases List.mem_map.1 hf' with ⟨r, hr, rfl⟩
      have hrne : r ≠ [] := by
        intro h0
        have hlen := hw r hr
        rw [h0] at hlen
        exact hc (List.length_eq_zero.1 hlen.symm)
      refine ⟨by simpa using hrne, ?_⟩
      intro cs hcs
      rcases List.mem_map.1 hcs with ⟨v, hv, rfl⟩
      exact ⟨(hcells r hr v hv).1, (hcells r hr v hv).2.1⟩
  have hfl : ∀ fields ∈ csvLines t, fields.length = t.cols.length := by
    intro fields hf
    rcases List.mem_cons.1 hf with rfl | hf'
    · exact List.length_map _ _
    · rcases List.mem_map.1 hf' with ⟨r, hr, rfl⟩
      rw [List.length_map]
      exact hw r hr
  have hlines : splitSep '\n' (toCsvContent t) = (csvLines t).map (joinSep ',') := by
    unfold toCsvContent
    apply splitSep_joinSep
    · simp [csvLines]
    · intro xs hxs hmem
      rcases List.mem_map.1 hxs with ⟨fields, hf, rfl⟩
      rcases mem_joinSep ',' fields '\n' hmem with hcomma | ⟨cs, hcs, hmemc⟩
      · exact absurd hcomma (by decide)
      · exact ((hsafe fields hf).2 cs hcs).2 hmemc
  have hback : ∀ fields ∈ csvLines t, splitSep ',' (joinSep ',' fields) = fields := by
    intro fields hf
    exact splitSep_joinSep ',' fields (hsafe fields hf).1
      (fun cs hcs => ((hsafe fields hf).2 cs hcs).1)
  have hscrut : (splitSep '\n' (toCsvContent t)).map (splitSep ',') = csvLines t := by
    rw [hlines, List.map_map]
    have hpt : ∀ fields ∈ csvLines t,
        (splitSep ',' ∘ joinSep ',') fields = id fields := by
      intro fields hf
      exact hback fields hf
    rw [List.map_congr_left hpt, List.map_id]
  have hcolsback : (t.cols.map String.toList).map String.mk = t.cols := by
    rw [List.map_map]
    have hpt : ∀ c ∈ t.cols, (String.mk ∘ String.toList) c = id c := by
      intro c _
      exact stringMk_toList c
    rw [List.map_congr_left hpt, List.map_id]
  have hrowsback : (t.rows.map (fun r => r.map showValueChars)).map
      (fun fields => fields.map parseValueChars) = t.rows := by
    rw [List.map_map]
    have hpt : ∀ r ∈ t.rows,
        ((fun fields => fields.map parseValueChars) ∘
          fun r => r.map showValueChars) r = id r := by
      intro r hr
      show (r.map showValueChars).map parseValueChars = r
      rw [List.map_map]
      have hcell : ∀ v ∈ r,
          (parseValueChars ∘ showValueChars) v = id v := by
        intro v hv
        exact (hcells r hr v hv).2.2
      rw [List.map_congr_left hcell, List.map_id]
    rw [List.map_congr_left hpt, List.map_id]
  refine ⟨rfl, ?_, ?_, ?_⟩
  · show fromCsvContent (toCsvContent t) = some t
    unfold fromCsvContent
    rw [hscrut]
    show some (Table.mk ((t.cols.map String.toList).map String.mk)
      ((t.rows.map (fun r => r.map showValueChars)).map
        (fun fields => fields.map parseValueChars))) = some t
    rw [hcolsback, hrowsback]
  · show (splitSep '\n' (toCsvContent t)).length = t.rows.length + 1
    rw [hlines, List.length_map]
    simp [csvLines]
  · intro line hline
    rw [show (exportCleaned t f).2 = toCsvContent t from rfl, hlines] at hline
    rcases List.mem_map.1 hline with ⟨fields, hf, rfl⟩
    rw [hback fields hf]
    exact hfl fields hf

/-- Witness for C9: a concrete export whose CSV text parses back to the very
same table. -/
theorem export_writes_roundtrippable_csv_witness :
    fromCsvContent (exportCleaned exportTableW "out.csv").2 = some exportTableW :=
  (export_writes_roundtrippable_csv exportTableW "out.csv" (by decide) (by decide)
    (by decide) (by decide)).2.1

end DataClean
